import Mathlib

/-!
Verification of the imohash sampled-hashing library.

The development shallowly embeds `src/lib.rs`: byte slices become `List Nat`
(each element a byte value below 256), `u32`/`u64`/`u128` arithmetic becomes
`Nat` arithmetic with explicit `% 2 ^ w` where the source can wrap, and the
fallible reader interface (`Read + Seek` over an in-memory cursor) becomes a
small state-passing `Reader` structure whose operations return `Except`.
-/

namespace Imohash

/-! ### 64-bit arithmetic helpers -/

/-- Wrapping 64-bit multiplication, `u64::wrapping_mul`. -/
def wmul (a b : Nat) : Nat := a * b % 2 ^ 64

/-- Wrapping 64-bit addition, `u64::wrapping_add`. -/
def wadd (a b : Nat) : Nat := (a + b) % 2 ^ 64

/-- 64-bit rotate left by `r` bits (`u64::rotate_left`), for `0 < r < 64`. -/
def rotl64 (x r : Nat) : Nat := (x * 2 ^ r + x / 2 ^ (64 - r)) % 2 ^ 64

/-- Little-endian interpretation of a byte list (`u64::from_le_bytes` /
`u128::from_le_bytes`, generalised to any length). Each element is reduced
mod 256 because the source reads the bytes out of a `u8` buffer. -/
def leBytesToNat (bs : List Nat) : Nat := bs.foldr (fun b acc => b % 256 + 256 * acc) 0

/-! ### The external 128-bit mixing primitive

Modelled from the spec: the crate calls `murmur3::murmur3_x64_128` (an
external dependency whose code is not part of this repository).  The spec
describes it as "a function `mix128(bytes, seed) -> u128` implementing the
standard 128-bit (x64 variant) non-cryptographic mixing algorithm" that
"must match the canonical reference implementation bit-for-bit".  The
definitions below transcribe that canonical algorithm; the concrete
fingerprint vectors listed in the spec (for example `sum("hello")` with
configuration `(3, 45)`) are reproduced by the theorems further down,
confirming bit-for-bit agreement with the reference on those vectors. -/

/-- Finalisation mixer `fmix64` of the canonical algorithm. -/
def fmix64 (k : Nat) : Nat :=
  let a := k ^^^ k / 2 ^ 33
  let b := wmul a 0xff51afd7ed558ccd
  let c := b ^^^ b / 2 ^ 33
  let d := wmul c 0xc4ceb9fe1a85ec53
  d ^^^ d / 2 ^ 33

/-- The `k1` lane transform: multiply by c1, rotate left 31, multiply by c2. -/
def mixK1 (k : Nat) : Nat := wmul (rotl64 (wmul k 0x87c37b91114253d5) 31) 0x4cf5ad432745937f

/-- The `k2` lane transform: multiply by c2, rotate left 33, multiply by c1. -/
def mixK2 (k : Nat) : Nat := wmul (rotl64 (wmul k 0x4cf5ad432745937f) 33) 0x87c37b91114253d5

/-- Accumulate the tail bytes 9..14 into the `k2` lane, guarded exactly as in
the canonical fall-through switch. -/
def tailK2 (bs : List Nat) : Nat :=
  let b := fun i => bs.getD i 0 % 256
  let r := bs.length
  let k2 := 0
  let k2 := if 15 ≤ r then k2 ^^^ b 14 * 2 ^ 48 else k2
  let k2 := if 14 ≤ r then k2 ^^^ b 13 * 2 ^ 40 else k2
  let k2 := if 13 ≤ r then k2 ^^^ b 12 * 2 ^ 32 else k2
  let k2 := if 12 ≤ r then k2 ^^^ b 11 * 2 ^ 24 else k2
  let k2 := if 11 ≤ r then k2 ^^^ b 10 * 2 ^ 16 else k2
  let k2 := if 10 ≤ r then k2 ^^^ b 9 * 2 ^ 8 else k2
  k2

/-- Accumulate the tail bytes 1..7 into the `k1` lane. -/
def tailK1 (bs : List Nat) : Nat :=
  let b := fun i => bs.getD i 0 % 256
  let r := bs.length
  let k1 := 0
  let k1 := if 8 ≤ r then k1 ^^^ b 7 * 2 ^ 56 else k1
  let k1 := if 7 ≤ r then k1 ^^^ b 6 * 2 ^ 48 else k1
  let k1 := if 6 ≤ r then k1 ^^^ b 5 * 2 ^ 40 else k1
  let k1 := if 5 ≤ r then k1 ^^^ b 4 * 2 ^ 32 else k1
  let k1 := if 4 ≤ r then k1 ^^^ b 3 * 2 ^ 24 else k1
  let k1 := if 3 ≤ r then k1 ^^^ b 2 * 2 ^ 16 else k1
  let k1 := if 2 ≤ r then k1 ^^^ b 1 * 2 ^ 8 else k1
  k1

/-- Fold the final partial block (fewer than 16 bytes) into the two lanes. -/
def tailHash (h1 h2 : Nat) (bs : List Nat) : Nat × Nat :=
  let r := bs.length
  let b := fun i => bs.getD i 0 % 256
  let h2n := if 9 ≤ r then h2 ^^^ mixK2 (tailK2 bs ^^^ b 8) else h2
  let h1n := if 1 ≤ r then h1 ^^^ mixK1 (tailK1 bs ^^^ b 0) else h1
  (h1n, h2n)

/-- Finalisation: xor in the length, cross-add, `fmix64`, cross-add, and pack
the two 64-bit lanes into one 128-bit value (`h1` is the low half). -/
def finalMix (h1 h2 len : Nat) : Nat :=
  let a1 := h1 ^^^ len % 2 ^ 64
  let a2 := h2 ^^^ len % 2 ^ 64
  let b1 := wadd a1 a2
  let b2 := wadd a2 b1
  let c1 := fmix64 b1
  let c2 := fmix64 b2
  let d1 := wadd c1 c2
  let d2 := wadd c2 d1
  d2 * 2 ^ 64 + d1

/-- Main 16-byte block loop of the canonical algorithm. -/
def mmLoop (h1 h2 processed : Nat) : List Nat → Nat
  | b0 :: b1 :: b2 :: b3 :: b4 :: b5 :: b6 :: b7 ::
    b8 :: b9 :: b10 :: b11 :: b12 :: b13 :: b14 :: b15 :: rest =>
    let k1 := leBytesToNat [b0, b1, b2, b3, b4, b5, b6, b7]
    let k2 := leBytesToNat [b8, b9, b10, b11, b12, b13, b14, b15]
    let h1a := wadd (wmul (wadd (rotl64 (h1 ^^^ mixK1 k1) 27) h2) 5) 0x52dce729
    let h2a := wadd (wmul (wadd (rotl64 (h2 ^^^ mixK2 k2) 31) h1a) 5) 0x38495ab5
    mmLoop h1a h2a (processed + 16) rest
  | bs =>
    let p := tailHash h1 h2 bs
    finalMix p.1 p.2 (processed + bs.length)

/-- Modelled from the spec: the external mixing primitive
`murmur3_x64_128(source, seed)` (canonical MurmurHash3, x64 128-bit variant)
consumed by `Hasher::hash` with seed 0.  The seed parameter is a `u32`. -/
def murmur3_x64_128 (bs : List Nat) (seed : Nat) : Nat :=
  mmLoop (seed % 2 ^ 32) (seed % 2 ^ 32) 0 bs

/-! ### Varint encoding (`put_uvarint`) -/

/-- Worker for `put_uvarint`, from `src/lib.rs` lines 92-103.  The Rust loop
writes `mx as u8 | 0x80` (that is, `mx % 128 + 128`) at successive indices
while `mx >= 0x80`, halting with a final plain byte `mx as u8`; here the
successive indices are realised by structural recursion down the buffer.  An
exhausted buffer corresponds to the out-of-bounds panic in Rust and is
unreachable for the 16-byte buffer and `u64` values used by `hash`. -/
def putUvarintGo : Nat → List Nat → List Nat × Nat
  | _x, [] => ([], 0)
  | x, _b :: rest =>
    if x < 128 then (x % 256 :: rest, 1)
    else
      let p := putUvarintGo (x / 128) rest
      ((x % 128 + 128) :: p.1, p.2 + 1)

/-- Rust `put_uvarint(buffer, x)`: writes the varint encoding of `x` over the
leading bytes of `buffer` and returns the updated buffer together with the
number of bytes written (the Rust function mutates in place and returns the
count). -/
def put_uvarint (buf : List Nat) (x : Nat) : List Nat × Nat := putUvarintGo x buf

/-- The byte sequence of the little-endian base-128 varint encoding of `x`,
as a standalone list (used to state properties of `put_uvarint`). -/
def uvarintBytes (x : Nat) : List Nat :=
  if h : x < 128 then [x % 256] else (x % 128 + 128) :: uvarintBytes (x / 128)
termination_by x
decreasing_by exact Nat.div_lt_self (by omega) (by omega)

/-- Decoder for the varint byte sequence: low 7 bits of each byte are payload,
little-endian base 128. -/
def uvarintDecode (bs : List Nat) : Nat := bs.foldr (fun b acc => b % 128 + 128 * acc) 0

/-! ### 128-bit post-processing -/

/-- `u128::to_le_bytes`: the 16 bytes of `x`, least significant first. -/
def toLeBytes (x : Nat) : List Nat := (List.range 16).map fun i => x / 2 ^ (8 * i) % 256

/-- `u128::swap_bytes`: reverse the byte order of a 128-bit value. -/
def swapBytes128 (x : Nat) : Nat := leBytesToNat (toLeBytes x).reverse

/-- `u128::rotate_right`: rotate the 128-bit value right by `n` bits. -/
def rotateRight128 (x n : Nat) : Nat :=
  (x / 2 ^ (n % 128) + x % 2 ^ (n % 128) * 2 ^ (128 - n % 128)) % 2 ^ 128

/-- Lines 79-82 of `src/lib.rs` after the mixing call: rotate right by 64,
swap bytes, lay out as 16 little-endian bytes, overwrite the front with the
varint of `size`, and reinterpret little-endian. -/
def finalize (mixv size : Nat) : Nat :=
  leBytesToNat (put_uvarint (toLeBytes (swapBytes128 (rotateRight128 mixv 64))) size).1

/-! ### The Hasher and the reader model -/

/-- Default sample threshold, `128 * 1024`. -/
def SAMPLE_THRESHOLD : Nat := 128 * 1024

/-- Default sample size, `16 * 1024`. -/
def SAMPLE_SIZE : Nat := 16 * 1024

/-- The hasher configuration: two `u32` policy parameters. -/
structure Hasher where
  sample_threshold : Nat
  sample_size : Nat

/-- `Hasher::new()`: the default configuration. -/
def Hasher.new : Hasher :=
  { sample_threshold := SAMPLE_THRESHOLD, sample_size := SAMPLE_SIZE }

/-- `Hasher::with_sample_size_and_threshold(size, threshold)`. -/
def Hasher.with_sample_size_and_threshold (size threshold : Nat) : Hasher :=
  { sample_threshold := threshold, sample_size := size }

/-- The in-memory byte source: `BufReader<Cursor<&[u8]>>` becomes a byte list
together with a cursor position. -/
structure Reader where
  data : List Nat
  pos : Nat

/-- `reader.seek(SeekFrom::End(0))`: returns the stream length and leaves the
cursor at the end. -/
def seekEnd0 (r : Reader) : Nat × Reader :=
  (r.data.length, { r with pos := r.data.length })

/-- `reader.rewind()`: cursor back to the start. -/
def rewind (r : Reader) : Reader := { r with pos := 0 }

/-- `reader.seek(SeekFrom::Start(p))`: a cursor may seek past the end. -/
def seekStart (r : Reader) (p : Nat) : Reader := { r with pos := p }

/-- `reader.seek(SeekFrom::End(-n))`: fails (negative position) when `n`
exceeds the stream length. -/
def seekEndNeg (r : Reader) (n : Nat) : Except Unit Reader :=
  if n ≤ r.data.length then Except.ok { r with pos := r.data.length - n }
  else Except.error ()

/-- `reader.read_exact(buf)` for a buffer of length `n`: fails with
`UnexpectedEof` unless `n` bytes are available at the cursor. -/
def readExact (r : Reader) (n : Nat) : Except Unit (List Nat × Reader) :=
  if r.pos + n ≤ r.data.length then
    Except.ok ((r.data.drop r.pos).take n, { r with pos := r.pos + n })
  else Except.error ()

/-- `reader.read_to_end(&mut buffer)`: everything from the cursor to the end. -/
def readToEnd (r : Reader) : List Nat × Reader :=
  (r.data.drop r.pos, { r with pos := r.data.length })

/-- The sampling decision of lines 61-64: the negation of
`sample_size < 1 || size < sample_threshold || size < (4 * sample_size) as u64`.
The product `4 * self.sample_size` is computed in `u32`, hence the `% 2 ^ 32`. -/
def sampleEligible (h : Hasher) (size : Nat) : Bool :=
  !(decide (h.sample_size < 1) || decide (size < h.sample_threshold) ||
    decide (size < 4 * h.sample_size % 2 ^ 32))

/-- `Hasher::hash`, lines 54-83 of `src/lib.rs`, over the reader model. -/
def Hasher.hash (h : Hasher) (r : Reader) : Except Unit Nat :=
  let sr := seekEnd0 r
  let size := sr.1
  let r1 := rewind sr.2
  if sampleEligible h size then
    match readExact r1 h.sample_size with
    | Except.error e => Except.error e
    | Except.ok fr =>
      match readExact (seekStart fr.2 (size / 2)) h.sample_size with
      | Except.error e => Except.error e
      | Except.ok mr =>
        match seekEndNeg mr.2 h.sample_size with
        | Except.error e => Except.error e
        | Except.ok r6 =>
          match readExact r6 h.sample_size with
          | Except.error e => Except.error e
          | Except.ok lr =>
            Except.ok (finalize (murmur3_x64_128 (fr.1 ++ mr.1 ++ lr.1) 0) size)
  else
    Except.ok (finalize (murmur3_x64_128 (readToEnd r1).1 0) size)

/-- `Hasher::sum`: hash an in-memory byte slice through a fresh reader. -/
def Hasher.sum (h : Hasher) (data : List Nat) : Except Unit Nat :=
  h.hash { data := data, pos := 0 }

/-- Decidable equality on hash outcomes, so that concrete fingerprint
comparisons can be settled by `decide`. -/
def exceptDecEq : DecidableEq (Except Unit Nat) := fun a b =>
  match a, b with
  | Except.error _, Except.error _ => isTrue rfl
  | Except.error _, Except.ok _ => isFalse (fun hc => Except.noConfusion hc)
  | Except.ok _, Except.error _ => isFalse (fun hc => Except.noConfusion hc)
  | Except.ok m, Except.ok n =>
    match Nat.decEq m n with
    | isTrue hmn => isTrue (hmn ▸ rfl)
    | isFalse hmn => isFalse (fun hc => hmn (Except.ok.inj hc))

instance : DecidableEq (Except Unit Nat) := exceptDecEq

/-! ### Helper lemmas about the mode decision and the reader plumbing -/

/-- The sampling decision, spelled out as an arithmetic condition (with the
`u32` wraparound of `4 * sample_size` kept explicit). -/
theorem sampleEligible_iff (h : Hasher) (size : Nat) :
    sampleEligible h size = true ↔
      1 ≤ h.sample_size ∧ h.sample_threshold ≤ size ∧
        4 * h.sample_size % 2 ^ 32 ≤ size := by
  simp only [sampleEligible, Bool.not_eq_true', Bool.or_eq_false_iff,
    decide_eq_false_iff_not, Nat.not_lt]
  omega

theorem readExact_ok (r : Reader) (n : Nat) (hc : r.pos + n ≤ r.data.length) :
    readExact r n =
      Except.ok ((r.data.drop r.pos).take n, { r with pos := r.pos + n }) :=
  if_pos hc

theorem readExact_err (r : Reader) (n : Nat) (hc : ¬ r.pos + n ≤ r.data.length) :
    readExact r n = Except.error () :=
  if_neg hc

theorem seekEndNeg_ok (r : Reader) (n : Nat) (hc : n ≤ r.data.length) :
    seekEndNeg r n = Except.ok { r with pos := r.data.length - n } :=
  if_pos hc

/-- When the sampling condition fails, `hash` reads the whole source. -/
theorem sum_fullRead (h : Hasher) (data : List Nat)
    (he : sampleEligible h data.length = false) :
    Hasher.sum h data = Except.ok (finalize (murmur3_x64_128 data 0) data.length) := by
  unfold Hasher.sum Hasher.hash
  dsimp only [seekEnd0, rewind]
  rw [he, if_neg (by decide)]
  dsimp only [readToEnd]
  rw [List.drop_zero]

/-- When the sampling condition holds and the middle zone fits, `hash` mixes
the three sampled zones. -/
theorem sum_sampled (h : Hasher) (data : List Nat)
    (he : sampleEligible h data.length = true)
    (hg : data.length / 2 + h.sample_size ≤ data.length) :
    Hasher.sum h data =
      Except.ok (finalize (murmur3_x64_128
        (data.take h.sample_size ++
          (data.drop (data.length / 2)).take h.sample_size ++
          data.drop (data.length - h.sample_size)) 0) data.length) := by
  have hs : h.sample_size ≤ data.length := by omega
  unfold Hasher.sum Hasher.hash
  dsimp only [seekEnd0, rewind, seekStart]
  rw [he, if_pos rfl]
  rw [readExact_ok ⟨data, 0⟩ h.sample_size (by show 0 + h.sample_size ≤ data.length; omega)]
  dsimp only []
  rw [readExact_ok ⟨data, data.length / 2⟩ h.sample_size
    (by show data.length / 2 + h.sample_size ≤ data.length; omega)]
  dsimp only []
  rw [seekEndNeg_ok ⟨data, data.length / 2 + h.sample_size⟩ h.sample_size
    (by show h.sample_size ≤ data.length; omega)]
  dsimp only []
  rw [readExact_ok ⟨data, data.length - h.sample_size⟩ h.sample_size
    (by show data.length - h.sample_size + h.sample_size ≤ data.length; omega)]
  dsimp only [List.drop_zero]
  rw [List.take_of_length_le (l := data.drop (data.length - h.sample_size))
    (by rw [List.length_drop]; omega)]

/-- When the sampling condition holds but the middle zone does not fit (which
requires the `u32` product `4 * sample_size` to have wrapped), `hash` fails. -/
theorem sum_err (h : Hasher) (data : List Nat)
    (he : sampleEligible h data.length = true)
    (hg : ¬ data.length / 2 + h.sample_size ≤ data.length) :
    Hasher.sum h data = Except.error () := by
  unfold Hasher.sum Hasher.hash
  dsimp only [seekEnd0, rewind, seekStart]
  rw [he, if_pos rfl]
  by_cases hs : h.sample_size ≤ data.length
  · rw [readExact_ok ⟨data, 0⟩ h.sample_size (by show 0 + h.sample_size ≤ data.length; omega)]
    dsimp only []
    rw [readExact_err ⟨data, data.length / 2⟩ h.sample_size
      (by show ¬ data.length / 2 + h.sample_size ≤ data.length; omega)]
  · rw [readExact_err ⟨data, 0⟩ h.sample_size (by show ¬ 0 + h.sample_size ≤ data.length; omega)]

/-- Every successful hash is the finalisation of a mix of some working
buffer; in full-read mode that buffer is the whole input. -/
theorem sum_ok_shape (h : Hasher) (data : List Nat) (v : Nat)
    (hok : Hasher.sum h data = Except.ok v) :
    ∃ buf : List Nat,
      v = finalize (murmur3_x64_128 buf 0) data.length ∧
      (sampleEligible h data.length = false → buf = data) := by
  by_cases he : sampleEligible h data.length = true
  · by_cases hg : data.length / 2 + h.sample_size ≤ data.length
    · rw [sum_sampled h data he hg] at hok
      refine ⟨_, (Except.ok.inj hok).symm, fun hfalse => ?_⟩
      rw [hfalse] at he; cases he
    · rw [sum_err h data he hg] at hok; cases hok
  · rw [Bool.not_eq_true] at he
    rw [sum_fullRead h data he] at hok
    exact ⟨data, (Except.ok.inj hok).symm, fun _ => rfl⟩

/-! ### Lemmas about the varint encoding -/

theorem uvarintBytes_of_lt {x : Nat} (h : x < 128) : uvarintBytes x = [x % 256] := by
  unfold uvarintBytes
  rw [dif_pos h]

theorem uvarintBytes_of_ge {x : Nat} (h : 128 ≤ x) :
    uvarintBytes x = (x % 128 + 128) :: uvarintBytes (x / 128) := by
  conv_lhs => rw [uvarintBytes]
  rw [dif_neg (by omega)]

theorem uvarintBytes_length_pos (x : Nat) : 0 < (uvarintBytes x).length := by
  by_cases h : x < 128
  · rw [uvarintBytes_of_lt h]; simp
  · rw [uvarintBytes_of_ge (by omega)]; simp

theorem uvarintBytes_lt_256 (x : Nat) : ∀ b ∈ uvarintBytes x, b < 256 := by
  induction x using Nat.strong_induction_on with
  | _ x ih =>
    by_cases h : x < 128
    · rw [uvarintBytes_of_lt h]
      intro b hb
      simp only [List.mem_singleton] at hb
      omega
    · rw [uvarintBytes_of_ge (by omega)]
      intro b hb
      rcases List.mem_cons.mp hb with hb | hb
      · omega
      · exact ih (x / 128) (Nat.div_lt_self (by omega) (by omega)) b hb

/-- The buffer-walking loop of `put_uvarint` writes exactly the varint byte
sequence over the front of the buffer (whenever the buffer is long enough)
and returns its length. -/
theorem putUvarintGo_eq : ∀ (buf : List Nat) (x : Nat),
    (uvarintBytes x).length ≤ buf.length →
    putUvarintGo x buf =
      (uvarintBytes x ++ buf.drop (uvarintBytes x).length, (uvarintBytes x).length) := by
  intro buf
  induction buf with
  | nil =>
    intro x hx
    have := uvarintBytes_length_pos x
    simp only [List.length_nil] at hx
    omega
  | cons b rest ih =>
    intro x hx
    by_cases h : x < 128
    · rw [uvarintBytes_of_lt h]
      show (if x < 128 then (x % 256 :: rest, 1) else _) = _
      rw [if_pos h]
      simp
    · rw [uvarintBytes_of_ge (by omega)]
      rw [uvarintBytes_of_ge (by omega)] at hx
      show (if x < 128 then _ else
        ((x % 128 + 128) :: (putUvarintGo (x / 128) rest).1,
          (putUvarintGo (x / 128) rest).2 + 1)) = _
      rw [if_neg h, ih (x / 128) (by simpa using hx)]
      simp [List.length_cons, List.cons_append, List.drop_succ_cons]

/-- Decoding the varint byte sequence (7 payload bits per byte, little-endian
base 128) recovers the encoded value. -/
theorem uvarintDecode_uvarintBytes (x : Nat) : uvarintDecode (uvarintBytes x) = x := by
  induction x using Nat.strong_induction_on with
  | _ x ih =>
    by_cases h : x < 128
    · rw [uvarintBytes_of_lt h]
      simp only [uvarintDecode, List.foldr_cons, List.foldr_nil]
      omega
    · rw [uvarintBytes_of_ge (by omega)]
      have hrec := ih (x / 128) (Nat.div_lt_self (by omega) (by omega))
      simp only [uvarintDecode, List.foldr_cons] at hrec ⊢
      rw [hrec]
      omega

/-- Every byte of the varint except the last has its high bit set; the last
byte does not. -/
theorem uvarintBytes_get (x : Nat) : ∀ (j b : Nat), (uvarintBytes x)[j]? = some b →
    b < 256 ∧ (j + 1 < (uvarintBytes x).length → 128 ≤ b) ∧
      (j + 1 = (uvarintBytes x).length → b < 128) := by
  induction x using Nat.strong_induction_on with
  | _ x ih =>
    intro j b hj
    by_cases h : x < 128
    · rw [uvarintBytes_of_lt h] at hj ⊢
      match j with
      | 0 =>
        simp only [List.getElem?_cons_zero, Option.some.injEq] at hj
        subst hj
        refine ⟨by omega, by simp, fun _ => by omega⟩
      | j + 1 => simp at hj
    · rw [uvarintBytes_of_ge (by omega)] at hj ⊢
      match j with
      | 0 =>
        simp only [List.getElem?_cons_zero, Option.some.injEq] at hj
        subst hj
        have := uvarintBytes_length_pos (x / 128)
        refine ⟨by omega, fun _ => by omega, fun hc => ?_⟩
        simp only [List.length_cons] at hc
        omega
      | j + 1 =>
        simp only [List.getElem?_cons_succ] at hj
        have hrec := ih (x / 128) (Nat.div_lt_self (by omega) (by omega)) j b hj
        simp only [List.length_cons]
        exact ⟨hrec.1, fun hlt => hrec.2.1 (by omega), fun heq => hrec.2.2 (by omega)⟩

/-- A varint byte sequence is bounded in length by the base-128 digit count:
below `128 ^ k` (for positive `k`) the encoding needs at most `k` bytes. -/
theorem uvarintBytes_length_le : ∀ (k : Nat), 0 < k → ∀ (x : Nat), x < 128 ^ k →
    (uvarintBytes x).length ≤ k := by
  intro k
  induction k with
  | zero => omega
  | succ k ih =>
    intro _ x hx
    by_cases h : x < 128
    · rw [uvarintBytes_of_lt h]; simp
    · have hk : 0 < k := by
        rcases Nat.eq_zero_or_pos k with hk0 | hk0
        · subst hk0; simp at hx; omega
        · exact hk0
      rw [uvarintBytes_of_ge (by omega)]
      have hdiv : x / 128 < 128 ^ k := by
        rw [Nat.div_lt_iff_lt_mul (by omega)]
        calc x < 128 ^ (k + 1) := hx
        _ = 128 ^ k * 128 := by rw [Nat.pow_succ]
      simpa using Nat.succ_le_succ (ih hk (x / 128) hdiv)

/-- A `u64` value encodes in at most ten varint bytes. -/
theorem uvarintBytes_length_le_ten {x : Nat} (hx : x < 2 ^ 64) :
    (uvarintBytes x).length ≤ 10 :=
  uvarintBytes_length_le 10 (by omega) x (by omega)

/-- Two distinct values have varint byte sequences that differ at a position
lying inside both sequences (the encoding is prefix-free). -/
theorem uvarintBytes_firstDiff : ∀ (a : Nat), ∀ (b : Nat), a ≠ b →
    ∃ j, j < (uvarintBytes a).length ∧ j < (uvarintBytes b).length ∧
      (uvarintBytes a)[j]? ≠ (uvarintBytes b)[j]? := by
  intro a
  induction a using Nat.strong_induction_on with
  | _ a ih =>
    intro b hab
    by_cases ha : a < 128 <;> by_cases hb : b < 128
    · refine ⟨0, ?_⟩
      rw [uvarintBytes_of_lt ha, uvarintBytes_of_lt hb]
      refine ⟨by simp, by simp, ?_⟩
      simp only [List.getElem?_cons_zero, ne_eq, Option.some.injEq]
      omega
    · refine ⟨0, ?_⟩
      rw [uvarintBytes_of_lt ha, uvarintBytes_of_ge (by omega)]
      refine ⟨by simp, by simp, ?_⟩
      simp only [List.getElem?_cons_zero, ne_eq, Option.some.injEq]
      omega
    · refine ⟨0, ?_⟩
      rw [uvarintBytes_of_ge (by omega), uvarintBytes_of_lt hb]
      refine ⟨by simp, by simp, ?_⟩
      simp only [List.getElem?_cons_zero, ne_eq, Option.some.injEq]
      omega
    · by_cases hmod : a % 128 = b % 128
      · have hdivne : a / 128 ≠ b / 128 := by
          intro hdiv
          exact hab (by omega)
        obtain ⟨j, hj1, hj2, hj3⟩ :=
          ih (a / 128) (Nat.div_lt_self (by omega) (by omega)) (b / 128) hdivne
        refine ⟨j + 1, ?_⟩
        rw [uvarintBytes_of_ge (show 128 ≤ a by omega),
          uvarintBytes_of_ge (show 128 ≤ b by omega)]
        refine ⟨by simp; omega, by simp; omega, ?_⟩
        simpa only [List.getElem?_cons_succ] using hj3
      · refine ⟨0, ?_⟩
        rw [uvarintBytes_of_ge (show 128 ≤ a by omega),
          uvarintBytes_of_ge (show 128 ≤ b by omega)]
        refine ⟨by simp, by simp, ?_⟩
        simp only [List.getElem?_cons_zero, ne_eq, Option.some.injEq]
        omega

/-! ### Lemmas about the 16-byte little-endian layout -/

theorem toLeBytes_length (x : Nat) : (toLeBytes x).length = 16 := by
  simp [toLeBytes]

theorem toLeBytes_getElem? (x i : Nat) (hi : i < 16) :
    (toLeBytes x)[i]? = some (x / 2 ^ (8 * i) % 256) := by
  simp [toLeBytes, List.getElem?_range hi]

theorem toLeBytes_lt_256 (x : Nat) : ∀ b ∈ toLeBytes x, b < 256 := by
  intro b hb
  simp only [toLeBytes, List.mem_map] at hb
  obtain ⟨i, _, hbi⟩ := hb
  omega

/-- Digit extraction: position `i` of the little-endian value of a bounded
byte list is the list's `i`-th element. -/
theorem leBytesToNat_digit : ∀ (bs : List Nat), (∀ b ∈ bs, b < 256) →
    ∀ i, i < bs.length → some (leBytesToNat bs / 2 ^ (8 * i) % 256) = bs[i]? := by
  intro bs
  induction bs with
  | nil => intro _ i hi; simp at hi
  | cons b tl ih =>
    intro hb i hi
    have hb0 : b < 256 := hb b (List.mem_cons_self b tl)
    have hhead : leBytesToNat (b :: tl) = b + 256 * leBytesToNat tl := by
      simp only [leBytesToNat, List.foldr_cons]
      omega
    match i with
    | 0 =>
      simp only [List.getElem?_cons_zero, Nat.mul_zero, Nat.pow_zero, Nat.div_one, hhead]
      rw [Nat.add_mul_mod_self_left, Nat.mod_eq_of_lt hb0]
    | i + 1 =>
      simp only [List.getElem?_cons_succ]
      rw [hhead]
      have hstep : (b + 256 * leBytesToNat tl) / 2 ^ (8 * (i + 1)) =
          leBytesToNat tl / 2 ^ (8 * i) := by
        have h1 : (8 : Nat) * (i + 1) = 8 + 8 * i := by ring
        rw [h1, Nat.pow_add, ← Nat.div_div_eq_div_mul]
        congr 1
        show (b + 256 * leBytesToNat tl) / 256 = leBytesToNat tl
        rw [Nat.add_mul_div_left b _ (by omega), Nat.div_eq_of_lt hb0]
        omega
      rw [hstep]
      exact ih (fun c hc => hb c (List.mem_cons_of_mem b hc)) i (by simpa using hi)

/-- Round trip: laying out the little-endian value of a 16-byte list
recovers the list. -/
theorem toLeBytes_leBytesToNat (bs : List Nat) (hlen : bs.length = 16)
    (hb : ∀ b ∈ bs, b < 256) : toLeBytes (leBytesToNat bs) = bs := by
  apply List.ext_getElem?
  intro n
  by_cases hn : n < 16
  · rw [toLeBytes_getElem? _ n hn, leBytesToNat_digit bs hb n (by omega)]
  · rw [List.getElem?_eq_none (by rw [toLeBytes_length]; omega),
      List.getElem?_eq_none (by omega)]

/-- The 16 bytes of a successful fingerprint: the varint of the length in
front, the tail of the post-processed mix bytes behind. -/
theorem finalize_bytes (m size : Nat) (hsize : size < 2 ^ 64) :
    (put_uvarint (toLeBytes (swapBytes128 (rotateRight128 m 64))) size).1 =
      uvarintBytes size ++
        (toLeBytes (swapBytes128 (rotateRight128 m 64))).drop (uvarintBytes size).length := by
  have hle : (uvarintBytes size).length ≤
      (toLeBytes (swapBytes128 (rotateRight128 m 64))).length := by
    rw [toLeBytes_length]
    have := uvarintBytes_length_le_ten hsize
    omega
  rw [put_uvarint, putUvarintGo_eq _ size hle]

/-- The fingerprint byte list of a successful hash has the varint of the
length as its prefix, and `toLeBytes` of the returned value recovers it. -/
theorem sum_ok_bytes (h : Hasher) (data : List Nat) (v : Nat)
    (hok : Hasher.sum h data = Except.ok v) (hsize : data.length < 2 ^ 64) :
    ∃ rest : List Nat, toLeBytes v = uvarintBytes data.length ++ rest := by
  obtain ⟨buf, hv, -⟩ := sum_ok_shape h data v hok
  set m := murmur3_x64_128 buf 0 with hm
  set inner := toLeBytes (swapBytes128 (rotateRight128 m 64)) with hinner
  have hval : v = leBytesToNat (uvarintBytes data.length ++
      inner.drop (uvarintBytes data.length).length) := by
    rw [hv]
    show leBytesToNat (put_uvarint inner data.length).1 = _
    rw [finalize_bytes m data.length hsize]
  refine ⟨inner.drop (uvarintBytes data.length).length, ?_⟩
  rw [hval, toLeBytes_leBytesToNat]
  · rw [List.length_append, List.length_drop, hinner, toLeBytes_length]
    have := uvarintBytes_length_le_ten hsize
    omega
  · intro b hb
    rcases List.mem_append.mp hb with hb | hb
    · exact uvarintBytes_lt_256 data.length b hb
    · exact toLeBytes_lt_256 _ b (List.mem_of_mem_drop hb)

/-! ### The claims -/

/-- C1, counterexample.  The claim states that sampling happens only when
`size ≥ 4 * sample_size`.  With `sample_size = 2 ^ 30` the `u32` product
`4 * sample_size` wraps to 0, so a 4-byte input with threshold 0 takes the
sampled path even though `4 < 4 * 2 ^ 30`; moreover the source is then not
read in full — the call fails instead. -/
theorem c1_mode_decision_cex :
    sampleEligible ⟨0, 1073741824⟩ (List.replicate 4 0).length = true ∧
    ¬ (4 * (1073741824 : Nat) ≤ (List.replicate 4 0).length) ∧
    Hasher.sum ⟨0, 1073741824⟩ (List.replicate 4 0) = Except.error () :=
  ⟨by decide, by decide, by decide⟩

/-- C1, amended.  `hash` takes the sampled-read path iff `sample_size ≥ 1`,
`size ≥ sample_threshold` and `size ≥ (4 * sample_size) mod 2 ^ 32` (the
product is computed in wrapping `u32` arithmetic); for `sample_size < 2 ^ 30`
that last bound coincides with the claimed `size ≥ 4 * sample_size`; and
whenever the condition fails — in particular whenever `sample_size = 0` —
the entire source is read into the working buffer. -/
theorem c1_mode_decision (h : Hasher) (data : List Nat) :
    (sampleEligible h data.length = true ↔
      1 ≤ h.sample_size ∧ h.sample_threshold ≤ data.length ∧
        4 * h.sample_size % 2 ^ 32 ≤ data.length) ∧
    (h.sample_size < 2 ^ 30 →
      (sampleEligible h data.length = true ↔
        1 ≤ h.sample_size ∧ h.sample_threshold ≤ data.length ∧
          4 * h.sample_size ≤ data.length)) ∧
    (sampleEligible h data.length = false →
      Hasher.sum h data = Except.ok (finalize (murmur3_x64_128 data 0) data.length)) := by
  refine ⟨sampleEligible_iff h data.length, fun hss => ?_, sum_fullRead h data⟩
  rw [sampleEligible_iff h data.length]
  have hnw : 4 * h.sample_size % 2 ^ 32 = 4 * h.sample_size :=
    Nat.mod_eq_of_lt (by omega)
  omega

/-- Witness for C1 at the default configuration on the empty input: the
condition fails, so the whole (empty) source is hashed, and the
`sample_size < 2 ^ 30` form of the decision applies. -/
theorem c1_mode_decision_witness :
    Hasher.sum Hasher.new [] = Except.ok (finalize (murmur3_x64_128 [] 0) 0) ∧
    (sampleEligible Hasher.new 0 = true ↔
      1 ≤ Hasher.new.sample_size ∧ Hasher.new.sample_threshold ≤ 0 ∧
        4 * Hasher.new.sample_size ≤ 0) :=
  ⟨(c1_mode_decision Hasher.new []).2.2 (by decide),
   (c1_mode_decision Hasher.new []).2.1 (by decide)⟩

/-- C2.  In sampled-read mode the buffer handed to the mixing primitive is
first ‖ middle ‖ last, where the zones have exactly `sample_size` bytes
taken from absolute offsets `0`, `size / 2` and `size - sample_size`. -/
theorem c2_sampled_zones (h : Hasher) (data : List Nat)
    (he : sampleEligible h data.length = true)
    (hb : 4 * h.sample_size ≤ data.length) :
    ∃ first middle lastZone : List Nat,
      Hasher.sum h data =
        Except.ok (finalize (murmur3_x64_128 (first ++ middle ++ lastZone) 0) data.length) ∧
      first.length = h.sample_size ∧ middle.length = h.sample_size ∧
      lastZone.length = h.sample_size ∧
      (∀ i, i < h.sample_size → first[i]? = data[i]?) ∧
      (∀ i, i < h.sample_size → middle[i]? = data[data.length / 2 + i]?) ∧
      (∀ i, i < h.sample_size → lastZone[i]? = data[data.length - h.sample_size + i]?) := by
  have hg : data.length / 2 + h.sample_size ≤ data.length := by omega
  refine ⟨data.take h.sample_size, (data.drop (data.length / 2)).take h.sample_size,
    data.drop (data.length - h.sample_size), sum_sampled h data he hg, ?_, ?_, ?_, ?_, ?_, ?_⟩
  · rw [List.length_take_of_le (by omega)]
  · rw [List.length_take_of_le (by rw [List.length_drop]; omega)]
  · rw [List.length_drop]; omega
  · intro i hi; exact List.getElem?_take_of_lt hi
  · intro i hi
    rw [List.getElem?_take_of_lt hi, List.getElem?_drop]
  · intro i hi
    rw [List.getElem?_drop]

/-- Witness for C2 at configuration `(sample_size = 3, threshold = 45)` on a
45-byte input. -/
theorem c2_sampled_zones_witness :
    ∃ first middle lastZone : List Nat,
      Hasher.sum ⟨45, 3⟩ (List.replicate 45 65) =
        Except.ok (finalize (murmur3_x64_128 (first ++ middle ++ lastZone) 0) 45) ∧
      first.length = 3 ∧ middle.length = 3 ∧ lastZone.length = 3 ∧
      (∀ i, i < 3 → first[i]? = (List.replicate 45 65 : List Nat)[i]?) ∧
      (∀ i, i < 3 → middle[i]? = (List.replicate 45 65 : List Nat)[22 + i]?) ∧
      (∀ i, i < 3 → lastZone[i]? = (List.replicate 45 65 : List Nat)[42 + i]?) :=
  c2_sampled_zones ⟨45, 3⟩ (List.replicate 45 65) (by decide) (by decide)

/-- C3.  Every returned fingerprint is obtained by mixing the working buffer
with the 128-bit primitive at seed 0, rotating right by 64 bits, reversing
the byte order, laying the value out as 16 little-endian bytes, embedding
the length varint, and reinterpreting the bytes as a little-endian `u128`;
in full-read mode the working buffer is the entire input. -/
theorem c3_postprocess_pipeline (h : Hasher) (data : List Nat) (v : Nat)
    (hok : Hasher.sum h data = Except.ok v) :
    ∃ buffer : List Nat,
      v = leBytesToNat
          (put_uvarint (toLeBytes (swapBytes128 (rotateRight128 (murmur3_x64_128 buffer 0) 64)))
            data.length).1 ∧
      (sampleEligible h data.length = false → buffer = data) := by
  obtain ⟨buf, hv, hfull⟩ := sum_ok_shape h data v hok
  exact ⟨buf, hv, hfull⟩

/-- Witness for C3: the empty input under the default configuration hashes
to 0, through the stated pipeline. -/
theorem c3_postprocess_pipeline_witness :
    ∃ buffer : List Nat,
      (0 : Nat) = leBytesToNat
          (put_uvarint (toLeBytes (swapBytes128 (rotateRight128 (murmur3_x64_128 buffer 0) 64)))
            (0 : Nat)).1 ∧
      (sampleEligible Hasher.new 0 = false → buffer = ([] : List Nat)) :=
  c3_postprocess_pipeline Hasher.new [] 0 (by decide)

/-- C4.  `put_uvarint` overwrites exactly the leading varint bytes of the
buffer, leaves every later byte unchanged, returns the byte count, and the
bytes are a little-endian base-128 varint: 7 payload bits per byte (decoding
recovers the value), high bit set on every byte except the last. -/
theorem c4_varint_front_embedding (x : Nat) (buf : List Nat)
    (hlen : (uvarintBytes x).length ≤ buf.length) :
    put_uvarint buf x =
      (uvarintBytes x ++ buf.drop (uvarintBytes x).length, (uvarintBytes x).length) ∧
    uvarintDecode (uvarintBytes x) = x ∧
    (∀ j b, (uvarintBytes x)[j]? = some b →
      (j + 1 < (uvarintBytes x).length → 128 ≤ b) ∧
      (j + 1 = (uvarintBytes x).length → b < 128)) :=
  ⟨putUvarintGo_eq buf x hlen, uvarintDecode_uvarintBytes x,
   fun j b hj => ⟨(uvarintBytes_get x j b hj).2.1, (uvarintBytes_get x j b hj).2.2⟩⟩

/-- Witness for C4 on the spec's concrete example: encoding 100500 writes
`[148, 145, 6]` over the first three positions, returns 3, and leaves the
trailing thirteen buffer bytes as they were. -/
theorem c4_varint_front_embedding_witness :
    uvarintBytes 100500 = [148, 145, 6] ∧
    (uvarintBytes 100500).length ≤ (List.replicate 16 55 : List Nat).length ∧
    put_uvarint (List.replicate 16 55) 100500 =
      ([148, 145, 6] ++ (List.replicate 16 55 : List Nat).drop 3, 3) ∧
    uvarintDecode (uvarintBytes 100500) = 100500 := by
  have huv : uvarintBytes 100500 = [148, 145, 6] := by
    rw [uvarintBytes_of_ge (by omega), uvarintBytes_of_ge (by omega),
      uvarintBytes_of_lt (by omega)]
  have main := c4_varint_front_embedding 100500 (List.replicate 16 55)
    (by rw [huv]; decide)
  refine ⟨huv, by rw [huv]; decide, ?_, main.2.1⟩
  rw [main.1, huv]
  rfl

/-- C5, counterexample.  The claim asserts full-read equivalence whenever
`size < 4 * sample_size`; with `sample_size = 2 ^ 30` and threshold 0 a
4-byte input satisfies `4 < 4 * 2 ^ 30`, yet the hasher errors out while the
`sample_size = 0` hasher succeeds — the fingerprints do not agree. -/
theorem c5_below_boundary_cex :
    ((List.replicate 4 0).length < 4 * (1073741824 : Nat) ∨
      (List.replicate 4 0).length < (0 : Nat)) ∧
    Hasher.sum ⟨0, 1073741824⟩ (List.replicate 4 0) ≠
      Hasher.sum (Hasher.with_sample_size_and_threshold 0 0) (List.replicate 4 0) :=
  ⟨Or.inl (by decide), by decide⟩

/-- C5, amended.  For inputs with `size < (4 * sample_size) mod 2 ^ 32` (the
`u32` product actually computed) or `size < sample_threshold`, the result
equals that of a hasher with `sample_size = 0` (forced full read), for any
threshold of the latter. -/
theorem c5_below_boundary_fullread_equiv (h : Hasher) (t : Nat) (data : List Nat)
    (hlt : data.length < 4 * h.sample_size % 2 ^ 32 ∨ data.length < h.sample_threshold) :
    Hasher.sum h data = Hasher.sum (Hasher.with_sample_size_and_threshold 0 t) data := by
  have e1 : sampleEligible h data.length = false := by
    rcases hsE : sampleEligible h data.length with _ | _
    · rfl
    · have := (sampleEligible_iff h data.length).mp hsE
      omega
  have e2 : sampleEligible (Hasher.with_sample_size_and_threshold 0 t) data.length = false := by
    rcases hsE : sampleEligible (Hasher.with_sample_size_and_threshold 0 t) data.length with _ | _
    · rfl
    · have := (sampleEligible_iff _ data.length).mp hsE
      simp [Hasher.with_sample_size_and_threshold] at this
  rw [sum_fullRead h data e1, sum_fullRead _ data e2]

/-- Witness for C5: a 3-byte input below the default threshold hashes
identically under the default configuration and under a forced-full-read
hasher. -/
theorem c5_below_boundary_fullread_equiv_witness :
    Hasher.sum ⟨131072, 16384⟩ [1, 2, 3] =
      Hasher.sum (Hasher.with_sample_size_and_threshold 0 7) [1, 2, 3] :=
  c5_below_boundary_fullread_equiv ⟨131072, 16384⟩ 7 [1, 2, 3] (Or.inr (by decide))

/-- C6.  Two successful fingerprints of inputs with different (64-bit) byte
lengths differ, and they differ at a byte position lying inside the leading
varint-encoded region of both fingerprints. -/
theorem c6_length_sensitivity (h : Hasher) (d1 d2 : List Nat) (v1 v2 : Nat)
    (h1 : Hasher.sum h d1 = Except.ok v1) (h2 : Hasher.sum h d2 = Except.ok v2)
    (hne : d1.length ≠ d2.length)
    (hb1 : d1.length < 2 ^ 64) (hb2 : d2.length < 2 ^ 64) :
    v1 ≠ v2 ∧ ∃ j, j < (uvarintBytes d1.length).length ∧
      j < (uvarintBytes d2.length).length ∧
      (toLeBytes v1)[j]? ≠ (toLeBytes v2)[j]? := by
  obtain ⟨rest1, hr1⟩ := sum_ok_bytes h d1 v1 h1 hb1
  obtain ⟨rest2, hr2⟩ := sum_ok_bytes h d2 v2 h2 hb2
  obtain ⟨j, hj1, hj2, hj3⟩ := uvarintBytes_firstDiff d1.length d2.length hne
  have hbytes : (toLeBytes v1)[j]? ≠ (toLeBytes v2)[j]? := by
    rw [hr1, hr2, List.getElem?_append_left hj1, List.getElem?_append_left hj2]
    exact hj3
  exact ⟨fun heq => hbytes (by rw [heq]), j, hj1, hj2, hbytes⟩

/-- Witness for C6: the empty input and a one-byte input under the default
configuration. -/
theorem c6_length_sensitivity_witness :
    (0 : Nat) ≠ 174409098778954850171378003608032972801 ∧
    ∃ j, j < (uvarintBytes 0).length ∧ j < (uvarintBytes 1).length ∧
      (toLeBytes 0)[j]? ≠ (toLeBytes 174409098778954850171378003608032972801)[j]? :=
  c6_length_sensitivity Hasher.new [] [0] 0 174409098778954850171378003608032972801
    (by decide) (by decide) (by decide) (by decide) (by decide)

/-- C7.  With configuration `(sample_size = 3, sample_threshold = 45)` on the
45-byte all-`'A'` input: flipping the byte at offset 2 (the edge of the first
sampled zone) changes the fingerprint returned by `sum`, while flipping the
byte at offset 3 (strictly between zones, not sampled) does not. -/
theorem c7_zone_sensitivity :
    Hasher.sum ⟨45, 3⟩ ((List.replicate 45 65).set 2 66) ≠
      Hasher.sum ⟨45, 3⟩ (List.replicate 45 65) ∧
    Hasher.sum ⟨45, 3⟩ ((List.replicate 45 65).set 3 66) =
      Hasher.sum ⟨45, 3⟩ (List.replicate 45 65) :=
  ⟨by decide, by decide⟩

/-- C8.  `hash` is a pure function of the configuration and the source
bytes: its result does not depend on the incoming cursor state of the
reader (the only mutable state in the model), so repeated calls — in any
order, after any other calls — return the same fingerprint that a fresh
`sum` over the same bytes returns. -/
theorem c8_deterministic_stateless (h : Hasher) (r : Reader) :
    Hasher.hash h r = Hasher.sum h r.data := by
  cases r
  rfl

/-- C9.  For `sample_size < 2 ^ 30` (no `u32` overflow in `4 * sample_size`)
`sum` never fails on an in-memory slice: the eligibility condition puts all
three zone reads within bounds, and full-read mode cannot fail. -/
theorem c9_sum_never_errs (h : Hasher) (data : List Nat)
    (hss : h.sample_size < 2 ^ 30) :
    ∃ v, Hasher.sum h data = Except.ok v := by
  by_cases he : sampleEligible h data.length = true
  · have hcond := (sampleEligible_iff h data.length).mp he
    have hnw : 4 * h.sample_size % 2 ^ 32 = 4 * h.sample_size :=
      Nat.mod_eq_of_lt (by omega)
    exact ⟨_, sum_sampled h data he (by omega)⟩
  · rw [Bool.not_eq_true] at he
    exact ⟨_, sum_fullRead h data he⟩

/-- Witness for C9: a sampled-mode hash at configuration `(3, 45)` of a
45-byte input succeeds. -/
theorem c9_sum_never_errs_witness :
    ∃ v, Hasher.sum ⟨45, 3⟩ (List.replicate 45 65) = Except.ok v :=
  c9_sum_never_errs ⟨45, 3⟩ (List.replicate 45 65) (by decide)

/-- C10.  For any `u64` value and a buffer of at least ten bytes,
`put_uvarint` (a total function) returns a count between 1 and 10, keeps the
buffer length, and leaves every byte from position 10 on unchanged — so the
16-byte fingerprint array of `hash` is never overrun. -/
theorem c10_put_uvarint_bounded (x : Nat) (buf : List Nat) (hx : x < 2 ^ 64)
    (hbuf : 10 ≤ buf.length) :
    1 ≤ (put_uvarint buf x).2 ∧ (put_uvarint buf x).2 ≤ 10 ∧
    (put_uvarint buf x).1.length = buf.length ∧
    (put_uvarint buf x).1.drop 10 = buf.drop 10 := by
  have hten := uvarintBytes_length_le_ten hx
  have hpos := uvarintBytes_length_pos x
  have hle : (uvarintBytes x).length ≤ buf.length := by omega
  rw [put_uvarint, putUvarintGo_eq buf x hle]
  refine ⟨hpos, hten, ?_, ?_⟩
  · show (uvarintBytes x ++ buf.drop (uvarintBytes x).length).length = buf.length
    rw [List.length_append, List.length_drop]
    omega
  · show (uvarintBytes x ++ buf.drop (uvarintBytes x).length).drop 10 = buf.drop 10
    rw [List.drop_append_eq_append_drop, List.drop_eq_nil_of_le (by omega),
      List.nil_append, List.drop_drop]
    congr 1
    omega

/-- Witness for C10 at the largest `u64` value, which needs all ten bytes. -/
theorem c10_put_uvarint_bounded_witness :
    1 ≤ (put_uvarint (List.replicate 16 0) 18446744073709551615).2 ∧
    (put_uvarint (List.replicate 16 0) 18446744073709551615).2 ≤ 10 ∧
    (put_uvarint (List.replicate 16 0) 18446744073709551615).1.length =
      (List.replicate 16 0 : List Nat).length ∧
    (put_uvarint (List.replicate 16 0) 18446744073709551615).1.drop 10 =
      (List.replicate 16 0 : List Nat).drop 10 :=
  c10_put_uvarint_bounded 18446744073709551615 (List.replicate 16 0) (by decide) (by decide)

end Imohash
